import Mathlib

/-!
Shallow embedding of the vexflowMouseEvents hit-testing and pitch-resolution
core (src/unnamed/part_000) together with proofs about its behaviour.

Modelling conventions:
- JavaScript `number` coordinates are modelled as exact rationals; the one
  irrational-producing operation, `Math.sqrt` inside `getDistance`, is
  modelled with `Real.sqrt`, so distances live in the real numbers.
- `undefined` is modelled with `Option`.
- JavaScript objects used as string-keyed dictionaries are modelled as
  functions into `Option`, updated with `Function.update`.
- VexFlow's `Fraction` (an exact rational with reduction) is modelled as the
  rational numbers.
- The VexFlow rendering engine is an external collaborator: its layout
  objects (systems, staves, voices, tickables) are modelled as plain data
  structures exposing exactly the fields the core reads.
-/

namespace VFM

/-- Truthiness of an optional JavaScript string: `undefined` and the empty
string are falsy, every other string is truthy. -/
def jsTruthy : Option String → Bool
  | none => false
  | some s => !s.isEmpty

/-- JavaScript `a || b` for optional numbers: returns the default when the
value is absent or zero (zero is falsy). -/
def jsOrQ (v : Option ℚ) (dflt : ℚ) : ℚ :=
  match v with
  | none => dflt
  | some q => if q = 0 then dflt else q

/-- JavaScript `Math.round`: round half toward positive infinity. -/
def jsRound (q : ℚ) : ℤ := ⌊q + 1 / 2⌋

/-- JavaScript `parseInt(s, 10)`: skip leading whitespace, read an optional
sign and then a non-empty run of decimal digits; `NaN` (no digits) is
modelled as `none`. -/
def jsParseIntCore : List Char → Option ℤ
  | [] => none
  | c :: cs =>
    if c = '-' then
      (jsParseIntCore cs).map (fun n => -n)
    else if c = '+' then
      jsParseIntCore cs
    else
      let digits := (c :: cs).takeWhile Char.isDigit
      if digits.isEmpty then none
      else some (digits.foldl (fun acc d => acc * 10 + (d.toNat - '0'.toNat : ℤ)) 0)

/-- JavaScript `parseInt(s, 10)` on a string. -/
def jsParseInt (s : String) : Option ℤ :=
  jsParseIntCore s.trim.toList

/-- A click location, in the rendered layout's coordinate space. -/
structure Point where
  x : ℚ
  y : ℚ
  deriving DecidableEq

/-- An axis-aligned rectangle supplied by the rendering collaborator. -/
structure BoundingBox where
  x : ℚ
  y : ℚ
  w : ℚ
  h : ℚ
  deriving DecidableEq

/-- Distance from a number to the range `[min, max]`: `0` inside the range,
otherwise the absolute overshoot. -/
def getAbsOutsideRange (num min max : ℚ) : ℚ :=
  if num < min then min - num
  else if num > max then num - max
  else 0

/-- Distance of a point to a bounding box, `0` if the point is within it:
the hypotenuse of the per-axis distances outside the ranges. -/
noncomputable def getDistance (point : Point) (boundingBox : BoundingBox) : ℝ :=
  let xDiff := getAbsOutsideRange point.x boundingBox.x (boundingBox.x + boundingBox.w)
  let yDiff := getAbsOutsideRange point.y boundingBox.y (boundingBox.y + boundingBox.h)
  Real.sqrt ((xDiff : ℝ) ^ 2 + (yDiff : ℝ) ^ 2)

/-- Loop body of `getClosest`: walks the list carrying the running index, the
best candidate so far and its distance, exactly as the source's `for` loop
with its `continue` / early-`return` / update branches. -/
noncomputable def getClosestAux {T : Type} (closestFunct : T → Option ℝ) :
    List T → ℕ → Option (ℕ × T) → Option ℝ → Option (ℕ × T)
  | [], _, closest, _ => closest
  | thisItem :: rest, i, closest, distance =>
    match closestFunct thisItem with
    | none => getClosestAux closestFunct rest (i + 1) closest distance
    | some thisDistance =>
      if thisDistance ≤ 0 then some (i, thisItem)
      else
        match distance with
        | none => getClosestAux closestFunct rest (i + 1) (some (i, thisItem)) (some thisDistance)
        | some d =>
          if thisDistance < d then
            getClosestAux closestFunct rest (i + 1) (some (i, thisItem)) (some thisDistance)
          else
            getClosestAux closestFunct rest (i + 1) closest distance

/-- Identifies the closest item in a list together with its index.  A
candidate whose distance is `undefined` is skipped; a candidate with
distance at most zero is returned immediately. -/
noncomputable def getClosest {T : Type} (iterable : List T)
    (closestFunct : T → Option ℝ) : Option (ℕ × T) :=
  getClosestAux closestFunct iterable 0 none none

/-- VexFlow category tag of stave notes (external collaborator constant). -/
def staveNoteCategory : String := "stavenotes"

/-- VexFlow category tag of accidental modifiers (external collaborator
constant). -/
def accidentalCategory : String := "accidentals"

/-- VexFlow category tag of key-signature stave modifiers (external
collaborator constant). -/
def keySignatureCategory : String := "keysignatures"

/-- A stave modifier as read by the core: its category tag and, for key
signatures, the key name (`keySpec`). -/
structure StaveModifier where
  category : String
  keySpec : String
  deriving DecidableEq

/-- The stave options the core reads. -/
structure StaveOptions where
  num_lines : Option ℚ
  spacing_between_lines_px : Option ℚ

/-- A stave as exposed by the rendering collaborator.  `yForLine` models the
collaborator's `getYForLine` (the y pixel coordinate of a staff line). -/
structure Stave where
  yForLine : ℚ → ℚ
  options : StaveOptions
  modifiers : List StaveModifier

/-- A note-level modifier: category tag, the key position it attaches to and
its type string (for accidentals: the accidental token). -/
structure NoteModifier where
  category : String
  index : ℕ
  type : String
  deriving DecidableEq

/-- A note-event (tickable) as exposed by the rendering collaborator. -/
structure Tickable where
  category : String
  ticks : ℚ
  keys : List String
  modifiers : List NoteModifier
  boundingBox : Option BoundingBox
  clef : String
  octave_shift : ℤ
  deriving DecidableEq

/-- A voice: a declared resolution and its chronologically ordered
tickables. -/
structure Voice where
  resolution : ℚ
  tickables : List Tickable
  deriving DecidableEq

/-- One `(stave, voices)` part of a system measure. -/
structure Part where
  stave : Stave
  voices : List Voice

/-- The system options the core reads. -/
structure SystemOptions where
  x : Option ℚ
  y : Option ℚ
  width : Option ℚ

/-- A system measure as exposed by the rendering collaborator. -/
structure System where
  options : SystemOptions
  lastY : Option ℚ
  parts : List Part

/-- The y coordinate of the center of the stave. -/
def getStaveCenterY (stave : Stave) : ℚ :=
  stave.yForLine ((jsOrQ stave.options.num_lines 5 - 1) / 2)

/-- Offset from the center line of the stave, in half-line-space steps,
positive above the center. -/
def getCenterLineOffset (stave : Stave) (pt : Point) : ℤ :=
  let centerY := getStaveCenterY stave
  let spacing := jsOrQ stave.options.spacing_between_lines_px 0
  jsRound ((centerY - pt.y) / (spacing / 2))

/-- The distance function used by `getClosestSystemMeasure`: undistanceable
when the geometry (x, y, width, or a positive height from `lastY`) is
absent. -/
noncomputable def systemMeasureDistance (pt : Point) (meas : System) : Option ℝ :=
  let x := meas.options.x
  let y := meas.options.y
  let w := meas.options.width
  let h : Option ℚ :=
    match y, meas.lastY with
    | some yv, some ly => if ly ≠ 0 ∧ ly - yv > 0 then some (ly - yv) else none
    | _, _ => none
  match x, y, w, h with
  | some xv, some yv, some wv, some hv => some (getDistance pt ⟨xv, yv, wv, hv⟩)
  | _, _, _, _ => none

/-- Identifies the closest system measure by bounding-box distance. -/
noncomputable def getClosestSystemMeasure (systems : List System) (pt : Point) :
    Option (ℕ × System) :=
  getClosest systems (systemMeasureDistance pt)

/-- A tickable together with the beat elapsed strictly before it in its
measure. -/
structure TickableAndBeat where
  tickable : Tickable
  beat : ℚ
  deriving DecidableEq

/-- Loop body of `getTickablesAndBeats`: pairs every tickable with the
running beat total, then advances the total by the tickable's duration as a
fraction of the voice's resolution. -/
def tickablesAndBeatsAux (resolution : ℚ) : List Tickable → ℚ → List TickableAndBeat
  | [], _ => []
  | t :: ts, totalTicks =>
    ⟨t, totalTicks⟩ :: tickablesAndBeatsAux resolution ts (totalTicks + t.ticks / resolution)

/-- Transforms the tickables of a voice into a chronological list of
tickables annotated with their beats. -/
def getTickablesAndBeats (voice : Voice) : List TickableAndBeat :=
  tickablesAndBeatsAux voice.resolution voice.tickables 0

/-- Loop body of `getClosestTickable`: returns the pair
`(itemBefore, itemAfter)` tracked by the source's scan with its two `break`
conditions. -/
def getClosestTickableAux (ptX : ℚ) :
    List TickableAndBeat → Option TickableAndBeat →
    Option TickableAndBeat × Option TickableAndBeat
  | [], itemBefore => (itemBefore, none)
  | tickAndBeat :: rest, itemBefore =>
    match tickAndBeat.tickable.boundingBox with
    | none => getClosestTickableAux ptX rest itemBefore
    | some bb =>
      if bb.x > ptX then (itemBefore, some tickAndBeat)
      else if bb.x + bb.w > ptX then (some tickAndBeat, none)
      else getClosestTickableAux ptX rest (some tickAndBeat)

/-- Returns the tickable before and, when the scan stopped on one, the
tickable after the x position, omitting whichever does not exist. -/
def getClosestTickable (voice : Voice) (ptX : ℚ) : List TickableAndBeat :=
  let p := getClosestTickableAux ptX (getTickablesAndBeats voice) none
  [p.1, p.2].filterMap id

/-- The distance function used for tickables: bounding-box distance of the
point (tickables reaching this point always carry a bounding box). -/
noncomputable def tickableDistance (pt : Point) (item : TickableAndBeat) : Option ℝ :=
  item.tickable.boundingBox.map (getDistance pt)

/-- Result record of `getClosestTickableResult`. -/
structure ClosestTickableResult where
  closestTickableBefore : Option TickableAndBeat
  closestTickable : Option TickableAndBeat

/-- Closest tickable metrics over a list of voices: `closestTickableBefore`
reduces the head of each voice's `getClosestTickable` list against the
previous best, and `closestTickable` reduces over all candidates of all
voices. -/
noncomputable def getClosestTickableResult (voices : List Voice) (pt : Point) :
    ClosestTickableResult :=
  let closestTickableList := voices.map (fun v => getClosestTickable v pt.x)
  let closestTickableBefore := closestTickableList.foldl
    (fun prevBest curList =>
      if curList.length < 1 then prevBest
      else (getClosest (([prevBest, curList.head?].filterMap id))
              (tickableDistance pt)).map (fun r => r.2))
    none
  let closestTickable := closestTickableList.flatten.foldl
    (fun prevBest cur =>
      (getClosest (([prevBest, some cur].filterMap id))
              (tickableDistance pt)).map (fun r => r.2))
    none
  ⟨closestTickableBefore, closestTickable⟩

/-- Converts an accidental token to its semitone offset from natural;
`undefined` and unknown tokens count as `0`.  The source lower-cases the
token before the switch. -/
def getAccidentalOffset (accidental : Option String) : ℤ :=
  match accidental with
  | none => 0
  | some a =>
    match a.toLower with
    | "bb" => -2
    | "b" => -1
    | "#" => 1
    | "##" => 2
    | "n" => 0
    | _ => 0

/-- A note letter with an optional accidental token (the source's `Note`). -/
structure Note where
  noteLetter : Char
  accidental : Option String
  deriving DecidableEq

/-- Information about a note: semitones from C, the note itself, and the
letter index above C. -/
structure NoteEntry where
  semitoneVal : ℤ
  noteName : Note
  noteLetterIdx : ℤ
  deriving DecidableEq

/-- The per-letter slot of a `NoteMapping`: the note letter plus a map from
accidental offsets to note entries. -/
structure NoteLetterMap where
  noteLetter : Char
  entries : ℤ → Option NoteEntry

/-- A mapping of note letter indices (C = 0, E = 2, ...) to their letter
slots. -/
def NoteMapping : Type := ℤ → Option NoteLetterMap

/-- One row of VexFlow's `keyProperties.note_values` reference table. -/
structure NoteValueRow where
  name : String
  index : ℤ
  int_val : ℤ
  accidental : Option String
  rest : Bool

/-- Modelled from the spec: VexFlow's fixed note-name/semitone reference
table (`VF.Flow.keyProperties.note_values`), an external collaborator table
that is not part of this repository's sources.  Letters C..B carry indices
0..6 and the standard semitone values; each letter has natural, `n`, `#`,
`##`, `b` and `bb` variants, and `R` is a rest entry. -/
def noteValuesTable : List NoteValueRow :=
  [⟨"C", 0, 0, none, false⟩, ⟨"CN", 0, 0, some "n", false⟩,
   ⟨"C#", 0, 1, some "#", false⟩, ⟨"C##", 0, 2, some "##", false⟩,
   ⟨"CB", 0, 11, some "b", false⟩, ⟨"CBB", 0, 10, some "bb", false⟩,
   ⟨"D", 1, 2, none, false⟩, ⟨"DN", 1, 2, some "n", false⟩,
   ⟨"D#", 1, 3, some "#", false⟩, ⟨"D##", 1, 4, some "##", false⟩,
   ⟨"DB", 1, 1, some "b", false⟩, ⟨"DBB", 1, 0, some "bb", false⟩,
   ⟨"E", 2, 4, none, false⟩, ⟨"EN", 2, 4, some "n", false⟩,
   ⟨"E#", 2, 5, some "#", false⟩, ⟨"E##", 2, 6, some "##", false⟩,
   ⟨"EB", 2, 3, some "b", false⟩, ⟨"EBB", 2, 2, some "bb", false⟩,
   ⟨"F", 3, 5, none, false⟩, ⟨"FN", 3, 5, some "n", false⟩,
   ⟨"F#", 3, 6, some "#", false⟩, ⟨"F##", 3, 7, some "##", false⟩,
   ⟨"FB", 3, 4, some "b", false⟩, ⟨"FBB", 3, 3, some "bb", false⟩,
   ⟨"G", 4, 7, none, false⟩, ⟨"GN", 4, 7, some "n", false⟩,
   ⟨"G#", 4, 8, some "#", false⟩, ⟨"G##", 4, 9, some "##", false⟩,
   ⟨"GB", 4, 6, some "b", false⟩, ⟨"GBB", 4, 5, some "bb", false⟩,
   ⟨"A", 5, 9, none, false⟩, ⟨"AN", 5, 9, some "n", false⟩,
   ⟨"A#", 5, 10, some "#", false⟩, ⟨"A##", 5, 11, some "##", false⟩,
   ⟨"AB", 5, 8, some "b", false⟩, ⟨"ABB", 5, 7, some "bb", false⟩,
   ⟨"B", 6, 11, none, false⟩, ⟨"BN", 6, 11, some "n", false⟩,
   ⟨"B#", 6, 12, some "#", false⟩, ⟨"B##", 6, 13, some "##", false⟩,
   ⟨"BB", 6, 10, some "b", false⟩, ⟨"BBB", 6, 9, some "bb", false⟩,
   ⟨"R", 6, 9, none, true⟩]

/-- Fold step of `getNoteMap`: skip rests, fetch or create the letter slot,
and store the entry under the accidental's offset. -/
def getNoteMapStep (mapping : NoteMapping) (row : NoteValueRow) : NoteMapping :=
  if row.rest then mapping
  else
    let items : NoteLetterMap :=
      match mapping row.index with
      | some it => it
      | none => ⟨row.name.front, fun _ => none⟩
    let accidentalOffset := getAccidentalOffset row.accidental
    let noteLetter := row.name.front
    let entry : NoteEntry :=
      ⟨row.int_val,
       ⟨noteLetter, some (if jsTruthy row.accidental then row.accidental.getD "n" else "n")⟩,
       row.index⟩
    Function.update mapping row.index
      (some ⟨items.noteLetter, Function.update items.entries accidentalOffset (some entry)⟩)

/-- Creates a `NoteMapping` from the VexFlow note-values reference table. -/
def getNoteMap : NoteMapping :=
  noteValuesTable.foldl getNoteMapStep (fun _ => none)

/-- The process-wide `NoteMapping` derived from the VexFlow table. -/
def NOTE_MAPPING : NoteMapping := getNoteMap

/-- The note and the octave for that note.  The source reads the entry for
the chosen accidental offset without checking it, so the entry is
optional. -/
structure NoteAndOctave where
  note : Option NoteEntry
  octave : ℤ
  deriving DecidableEq

/-- Parses a note string such as `C#` into its letter and accidental,
or `none` when the letter or the accidental token is not recognised. -/
def parseNote (noteStr : String) : Option Note :=
  let trimmed := noteStr.trim
  if trimmed.isEmpty then none
  else
    let noteLetter := trimmed.front.toUpper
    if noteLetter = 'A' ∨ noteLetter = 'B' ∨ noteLetter = 'C' ∨ noteLetter = 'D' ∨
        noteLetter = 'E' ∨ noteLetter = 'F' ∨ noteLetter = 'G' then
      let accidentalStr := trimmed.drop 1
      if accidentalStr.length > 0 then
        if accidentalStr = "##" ∨ accidentalStr = "#" ∨ accidentalStr = "b" ∨
            accidentalStr = "bb" ∨ accidentalStr = "n" then
          some ⟨noteLetter, some accidentalStr⟩
        else none
      else some ⟨noteLetter, none⟩
    else none

/-- Formats a note back into a string such as `Bb`. -/
def formatNote (note : Note) : String :=
  String.singleton note.noteLetter ++ note.accidental.getD ""

/-- A parsed pitch key: the note and its octave. -/
structure NoteWithOctave where
  note : Note
  octave : ℤ
  deriving DecidableEq

/-- Parses a pitch string of the form `C#/4` into its parts.  The octave is
read with `parseInt` and must be truthy (nonzero, not `NaN`). -/
def parseNoteAndOctave (noteWithOctave : String) : Option NoteWithOctave :=
  let pieces := noteWithOctave.splitOn "/"
  if pieces.length ≠ 2 then none
  else
    let note := parseNote (pieces.getD 0 "")
    let octave := jsParseInt (pieces.getD 1 "")
    match note, octave with
    | some n, some o => if o = 0 then none else some ⟨n, o⟩
    | _, _ => none

/-- A key-signature map: note letters to their implied accidental token. -/
def KeySigAccidentals : Type := Char → Option String

/-- Accidental overrides within a measure: (letter, octave) to the
accidental token that now applies to it. -/
def AccidentalOverrides : Type := Char × ℤ → Option String

/-- Accidentals in effect at a point in a measure: key-signature accidentals
and measure-local overrides. -/
structure EffectiveAccidentals where
  keySig : KeySigAccidentals
  accidentalOverrides : AccidentalOverrides

/-- The literal table of accidentals per key signature. -/
def KEY_SIGNATURE_ACCIDENTALS : List (String × List String) :=
  [("C", []),
   ("G", ["F#"]),
   ("D", ["F#", "C#"]),
   ("A", ["F#", "C#", "G#"]),
   ("E", ["F#", "C#", "G#", "D#"]),
   ("B", ["F#", "C#", "G#", "D#", "A#"]),
   ("F#", ["F#", "C#", "G#", "D#", "A#", "E#"]),
   ("C#", ["F#", "C#", "G#", "D#", "A#", "E#", "B#"]),
   ("F", ["Bb"]),
   ("Bb", ["Bb", "Eb"]),
   ("Eb", ["Bb", "Eb", "Ab"]),
   ("Ab", ["Bb", "Eb", "Ab", "Db"]),
   ("Db", ["Bb", "Eb", "Ab", "Db", "Gb"]),
   ("Gb", ["Bb", "Eb", "Ab", "Db", "Gb", "Cb"]),
   ("Cb", ["Bb", "Eb", "Ab", "Db", "Gb", "Cb", "Fb"])]

/-- Builds the letter-to-accidental map of one key signature row. -/
def keySigRowMap (keysStr : List String) : KeySigAccidentals :=
  keysStr.foldl
    (fun accidentalMap accidentalNoteStr =>
      match parseNote accidentalNoteStr with
      | some accidentalNote =>
        match accidentalNote.accidental with
        | some a => Function.update accidentalMap accidentalNote.noteLetter (some a)
        | none => accidentalMap
      | none => accidentalMap)
    (fun _ => none)

/-- Creates the mapping of key-signature names to their accidental maps. -/
def convertToMap (keySigs : List (String × List String)) :
    List (String × KeySigAccidentals) :=
  keySigs.foldl
    (fun toRet p =>
      match parseNote p.1 with
      | some note => toRet ++ [(formatNote note, keySigRowMap p.2)]
      | none => toRet)
    []

/-- Maps key signatures (such as `Bb`) to their accidental maps. -/
def KEY_SIGNATURE_MAP : List (String × KeySigAccidentals) :=
  convertToMap KEY_SIGNATURE_ACCIDENTALS

/-- Looks a name up in a string-keyed map list (a JS object lookup). -/
def lookupStr {V : Type} (m : List (String × V)) (key : String) : Option V :=
  (m.find? (fun p => p.1 = key)).map (fun p => p.2)

/-- Gets the note accidentals implied by a key-signature stave modifier, or
`none` when its key name cannot be parsed (or names no known key). -/
def getKeySigAccidentals (keySig : StaveModifier) : Option KeySigAccidentals :=
  match parseNote keySig.keySpec with
  | some keyNote => lookupStr KEY_SIGNATURE_MAP (formatNote keyNote)
  | none => none

/-- Compares two fractions, returning the sign of their difference clamped
to `[-1, 1]` (the source clamps the numerator of the difference). -/
def compareFractions (a b : ℚ) : ℤ :=
  min 1 (max (-1) (a - b).num)

/-- A pitch key with its beat and any accidental modifier attached at its
key position (the intermediate record of the first `flatMap`). -/
structure KeyBeatAcc where
  key : String
  beat : ℚ
  accidental : Option String
  deriving DecidableEq

/-- The accidental-modifier map of a stave note: modifier key index to the
modifier's type string, later modifiers overwriting earlier ones. -/
def noteAccidentalMap (modifiers : List NoteModifier) : ℕ → Option String :=
  modifiers.foldl
    (fun accidentals m =>
      if m.category = accidentalCategory then Function.update accidentals m.index (some m.type)
      else accidentals)
    (fun _ => none)

/-- First stage of `getVoicesAccidentals`: for a stave note, every pitch key
with its beat and attached accidental; other tickable categories contribute
nothing. -/
def noteKeyEntries (tickAndBeat : TickableAndBeat) : List KeyBeatAcc :=
  if tickAndBeat.tickable.category = staveNoteCategory then
    let accidentals := noteAccidentalMap tickAndBeat.tickable.modifiers
    tickAndBeat.tickable.keys.mapIdx
      (fun idx key => ⟨key, tickAndBeat.beat, accidentals idx⟩)
  else []

/-- A parsed accidental entry: the (possibly unparseable) pitch and its
beat. -/
structure AccEntry where
  note : Option NoteWithOctave
  beat : ℚ
  deriving DecidableEq

/-- Second stage of `getVoicesAccidentals`: parse the key and, when a truthy
accidental modifier is attached and the key itself carries none, adopt the
modifier's accidental. -/
def toAccEntry (e : KeyBeatAcc) : AccEntry :=
  let parsedNote := parseNoteAndOctave e.key
  match parsedNote, e.accidental with
  | some p, some a =>
    if jsTruthy (some a) ∧ ¬ jsTruthy p.note.accidental then
      ⟨some ⟨⟨p.note.noteLetter, some a⟩, p.octave⟩, e.beat⟩
    else ⟨some p, e.beat⟩
  | p, _ => ⟨p, e.beat⟩

/-- All accidental entries of the voices, in chronological flatMap order. -/
def rawAccEntries (voices : List Voice) : List AccEntry :=
  (((voices.flatMap getTickablesAndBeats).flatMap noteKeyEntries).map toAccEntry)

/-- The filter of `getVoicesAccidentals`: the pitch parsed, it carries an
accidental, and its beat is at or before the stop beat. -/
def keptPred (stopBeat : ℚ) (e : AccEntry) : Bool :=
  match e.note with
  | some p => jsTruthy p.note.accidental && decide (compareFractions e.beat stopBeat ≤ 0)
  | none => false

/-- The accidental entries kept by the filter. -/
def keptAccEntries (voices : List Voice) (stopBeat : ℚ) : List AccEntry :=
  (rawAccEntries voices).filter (keptPred stopBeat)

/-- The sort order of `getVoicesAccidentals`: beat ascending, by the clamped
fraction comparison. -/
def accEntryLe (a b : AccEntry) : Prop :=
  compareFractions a.beat b.beat ≤ 0

instance : DecidableRel accEntryLe := fun a b => by
  unfold accEntryLe; infer_instance

/-- The kept accidental entries sorted by beat ascending (a stable sort, as
JavaScript's `Array.prototype.sort`). -/
def sortedAccEntries (voices : List Voice) (stopBeat : ℚ) : List AccEntry :=
  (keptAccEntries voices stopBeat).insertionSort accEntryLe

/-- The `forEach` body of `getVoicesAccidentals`: record the entry's
accidental for its letter and octave, skipping entries with none. -/
def applyAccEntry (accidentalMap : AccidentalOverrides) (e : AccEntry) :
    AccidentalOverrides :=
  match e.note with
  | some p =>
    if jsTruthy p.note.accidental then
      Function.update accidentalMap (p.note.noteLetter, p.octave) p.note.accidental
    else accidentalMap
  | none => accidentalMap

/-- The accidental overrides established in the voices up to the stop
beat: later entries (and, at equal beats, later list positions) win. -/
def getVoicesAccidentals (voices : List Voice) (stopBeat : ℚ) :
    AccidentalOverrides :=
  (sortedAccEntries voices stopBeat).foldl applyAccEntry (fun _ => none)

/-- The key-signature modifier on the stave at the stave index of the
measure at `idx`, when that measure, part and modifier exist. -/
def staveKeySigModifier (systems : List System) (staveIdx idx : ℕ) :
    Option StaveModifier :=
  match systems[idx]? with
  | some system =>
    match system.parts[staveIdx]? with
    | some part => part.stave.modifiers.find? (fun m => m.category = keySignatureCategory)
    | none => none
  | none => none

/-- Backward walk of `getAccidentals` from the measure index: the first
key-signature modifier found on the stave at the stave index decides, even
when its key name cannot be parsed (the walk breaks there). -/
def findKeySig (systems : List System) (staveIdx : ℕ) : ℕ → Option KeySigAccidentals
  | 0 =>
    match staveKeySigModifier systems staveIdx 0 with
    | some keySig => getKeySigAccidentals keySig
    | none => none
  | idx + 1 =>
    match staveKeySigModifier systems staveIdx (idx + 1) with
    | some keySig => getKeySigAccidentals keySig
    | none => findKeySig systems staveIdx idx

/-- Accidentals in effect for a stave of a measure at a beat: the
key-signature component from the backward walk and the override component
collected from every voice of every part of the target measure. -/
def getAccidentals (systems : List System) (staveIdx measureIdx : ℕ)
    (measureBeat : ℚ) : EffectiveAccidentals :=
  if systems.length > measureIdx then
    let keySigAccidentals := findKeySig systems staveIdx measureIdx
    let voices : List Voice :=
      match systems[measureIdx]? with
      | some system => system.parts.flatMap (fun p => p.voices)
      | none => []
    let voiceAccidentals := getVoicesAccidentals voices measureBeat
    ⟨keySigAccidentals.getD (fun _ => none), voiceAccidentals⟩
  else
    ⟨fun _ => none, fun _ => none⟩

/-- Modelled from the spec: VexFlow's clef table (`VF.Flow.clefProperties`),
an external collaborator table giving each clef's fixed `line_shift`
constant; unknown clef names have no entry. -/
def clefProperties (clef : String) : Option ℤ :=
  match clef with
  | "treble" => some 0
  | "bass" => some 6
  | "tenor" => some 4
  | "alto" => some 3
  | "soprano" => some 1
  | "percussion" => some 0
  | "mezzo-soprano" => some 2
  | "baritone-c" => some 5
  | "baritone-f" => some 5
  | "subbass" => some 7
  | "french" => some (-1)
  | _ => none

/-- The first normalization loop of `getNoteAndOctave`: while the offset is
negative, add 7 and decrement the octave. -/
def addSevens (raw octave : ℤ) : ℤ × ℤ :=
  if raw < 0 then addSevens (raw + 7) (octave - 1) else (raw, octave)
termination_by (-raw).toNat
decreasing_by omega

/-- The second normalization loop of `getNoteAndOctave`: while the offset is
at least 7, subtract 7 and increment the octave. -/
def subSevens (raw octave : ℤ) : ℤ × ℤ :=
  if raw ≥ 7 then subSevens (raw - 7) (octave + 1) else (raw, octave)
termination_by raw.toNat
decreasing_by omega

/-- Both normalization loops of `getNoteAndOctave` in source order. -/
def normalizeLineShift (raw octave : ℤ) : ℤ × ℤ :=
  let p := addSevens raw octave
  subSevens p.1 p.2

/-- Determines the note and octave for a stave center-line offset under a
clef, an octave shift and optional effective accidentals: a measure override
for the letter and octave wins, else the key-signature accidental for the
letter, else natural. -/
def getNoteAndOctave (noteMap : NoteMapping) (clef : String)
    (centerLineOffset : ℤ) (octaveShift : ℤ)
    (effectiveAccidentals : Option EffectiveAccidentals) : Option NoteAndOctave :=
  match clefProperties clef with
  | none => none
  | some clefLineShift =>
    let p := normalizeLineShift (centerLineOffset - clefLineShift * 2 - 1) (5 - octaveShift)
    match noteMap p.1 with
    | none => none
    | some noteLetterMap =>
      let noteLetter := noteLetterMap.noteLetter
      let accidental : Option String :=
        match effectiveAccidentals with
        | none => none
        | some eff =>
          let a := eff.accidentalOverrides (noteLetter, p.2)
          if jsTruthy a then a else eff.keySig noteLetter
      let accidentalOffset := if jsTruthy accidental then getAccidentalOffset accidental else 0
      some ⟨noteLetterMap.entries accidentalOffset, p.2⟩

/-- A mouse event within the context of a score: the output record of the
event assembler. -/
structure ScoreMouseEvent where
  accidentals : Option EffectiveAccidentals
  measureIdx : Option ℕ
  closestSystemMeasure : Option System
  closestStaveIdx : Option ℕ
  closestStave : Option Stave
  closestTickable : Option TickableAndBeat
  closestTickableBefore : Option TickableAndBeat
  centerLineOffset : Option ℤ
  effectivePitch : Option NoteAndOctave
  mouseX : ℚ
  mouseY : ℚ

/-- The event record before any resolution step succeeded: every field the
pipeline fills is still absent. -/
def baseEvent (pt : Point) : ScoreMouseEvent :=
  ⟨none, none, none, none, none, none, none, none, none, pt.x, pt.y⟩

/-- The stave-level distance function: vertical distance of the click to the
stave's center line. -/
noncomputable def staveDistance (pt : Point) (stave : Stave) : Option ℝ :=
  some ((|pt.y - getStaveCenterY stave| : ℚ) : ℝ)

/-- Gets a score mouse event from a mouse point and the systems of a score:
closest measure, closest stave, closest tickable (and closest-before), the
center-line offset, and, when a note map and a closest-before tickable are
available, the accidentals (only when requested) and the effective pitch. -/
noncomputable def getScoreMouseEvent (systems : List System) (pt : Point)
    (noteMap : Option NoteMapping) (fetchAccidentals : Bool) : ScoreMouseEvent :=
  match getClosestSystemMeasure systems pt with
  | none => baseEvent pt
  | some (measureIdx, closestSystemMeasure) =>
    let base1 := { baseEvent pt with
      measureIdx := some measureIdx,
      closestSystemMeasure := some closestSystemMeasure }
    match getClosest (closestSystemMeasure.parts.map (fun p => p.stave))
        (staveDistance pt) with
    | none => base1
    | some (closestStaveIdx, closestStave) =>
      let centerLineOffset := getCenterLineOffset closestStave pt
      let base2 := { base1 with
        closestStaveIdx := some closestStaveIdx,
        closestStave := some closestStave,
        centerLineOffset := some centerLineOffset }
      match closestSystemMeasure.parts[closestStaveIdx]? with
      | none => base2
      | some part =>
        let r := getClosestTickableResult part.voices pt
        let base3 := { base2 with
          closestTickable := r.closestTickable,
          closestTickableBefore := r.closestTickableBefore }
        match noteMap, r.closestTickableBefore with
        | some nm, some pitchTick =>
          let accidentals :=
            if fetchAccidentals then
              some (getAccidentals systems closestStaveIdx measureIdx pitchTick.beat)
            else none
          { base3 with
            accidentals := accidentals,
            effectivePitch := getNoteAndOctave nm pitchTick.tickable.clef
              centerLineOffset pitchTick.tickable.octave_shift accidentals }
        | _, _ => base3

/-- The accidental an entry carries, when its pitch parsed. -/
def entryAcc (e : AccEntry) : Option String :=
  e.note.bind (fun p => p.note.accidental)

/-- Whether the `forEach` of `getVoicesAccidentals` writes this entry to the
override key `k`: the pitch parsed, its accidental is truthy and its letter
and octave form `k`. -/
def entryAppliesTo (e : AccEntry) (k : Char × ℤ) : Bool :=
  match e.note with
  | some p => jsTruthy p.note.accidental && decide ((p.note.noteLetter, p.octave) = k)
  | none => false

/-- A concrete distance function for exercising `getClosest`: candidate `0`
has distance zero, all others are undistanceable. -/
noncomputable def cDistFn4 : ℕ → Option ℝ :=
  fun n => if n = 0 then some 0 else none

/-- A concrete click point strictly inside `cBB4`. -/
def cPt4 : Point := ⟨2, 3⟩

/-- A concrete bounding box strictly containing `cPt4`. -/
def cBB4 : BoundingBox := ⟨1, 1, 2, 4⟩

/-- A concrete tickable whose bounding box starts right of `cPt2`. -/
def cT2 : Tickable :=
  ⟨staveNoteCategory, 4, ["C/5"], [], some ⟨10, 0, 5, 5⟩, "treble", 0⟩

/-- A concrete voice containing only `cT2`. -/
def cV2 : Voice := ⟨4, [cT2]⟩

/-- A concrete click point left of `cT2`'s bounding box. -/
def cPt2 : Point := ⟨5, 2⟩

/-- A concrete five-line stave centered at y = 80 with 10px line spacing
and no modifiers. -/
def cStave1 : Stave := ⟨fun l => 60 + 10 * l, ⟨some 5, some 10⟩, []⟩

/-- A concrete quarter note on C5 with a bounding box containing
`cPt1.x`. -/
def cNote1 : Tickable :=
  ⟨staveNoteCategory, 4, ["C/5"], [], some ⟨25, 60, 10, 10⟩, "treble", 0⟩

/-- A concrete voice holding just `cNote1`. -/
def cVoice1 : Voice := ⟨4, [cNote1]⟩

/-- A concrete one-stave system measure holding `cVoice1`. -/
def cSys1 : System :=
  ⟨⟨some 20, some 60, some 150⟩, some 120, [⟨cStave1, [cVoice1]⟩]⟩

/-- A concrete click point inside `cSys1` and inside `cNote1`'s bounding
box, a half line-space above the stave center. -/
def cPt1 : Point := ⟨27, 77⟩

/-- A concrete sharped note on C5 used on the second stave of `cSys3`. -/
def cNote3 : Tickable :=
  ⟨staveNoteCategory, 4, ["C#/5"], [], none, "treble", 0⟩

/-- A concrete two-part system measure: the first stave has no voices, the
second stave's voice holds `cNote3`. -/
def cSys3 : System :=
  ⟨⟨some 20, some 60, some 150⟩, some 220,
   [⟨cStave1, []⟩,
    ⟨⟨fun l => 160 + 10 * l, ⟨some 5, some 10⟩, []⟩, [⟨4, [cNote3]⟩]⟩]⟩

/-- A concrete voice of a quarter note and two eighth notes at quarter
resolution. -/
def cVoice5 : Voice :=
  ⟨4, [⟨staveNoteCategory, 4, ["C/5"], [], none, "treble", 0⟩,
       ⟨staveNoteCategory, 2, ["D/5"], [], none, "treble", 0⟩,
       ⟨staveNoteCategory, 2, ["E/5"], [], none, "treble", 0⟩]⟩

/-- A throwaway tickable-and-beat used as the default of list lookups. -/
def cDummyTB : TickableAndBeat :=
  ⟨⟨"", 0, [], [], none, "", 0⟩, 0⟩

/-- A concrete voice carrying a sharp then a flat on C5, a quarter apart. -/
def cVoice6 : Voice :=
  ⟨4, [⟨staveNoteCategory, 4, ["C#/5"], [], none, "treble", 0⟩,
       ⟨staveNoteCategory, 2, ["Cb/5"], [], none, "treble", 0⟩]⟩

/-- Concrete effective accidentals: an override sharp on (C, 5) and a
key-signature flat on B. -/
def cEff8 : EffectiveAccidentals :=
  ⟨Function.update (fun _ => none) 'B' (some "b"),
   Function.update (fun _ => none) ('C', 5) (some "#")⟩

/-- Concrete effective accidentals with only the key-signature flat on B. -/
def cEff8b : EffectiveAccidentals :=
  ⟨Function.update (fun _ => none) 'B' (some "b"), fun _ => none⟩

/-- Concrete empty effective accidentals. -/
def cEff8c : EffectiveAccidentals := ⟨fun _ => none, fun _ => none⟩

/-- A concrete system whose stave carries a key signature with the
malformed key name `Hb`. -/
def cSys9 : System :=
  ⟨⟨some 20, some 60, some 150⟩, some 120,
   [⟨⟨fun l => 60 + 10 * l, ⟨some 5, some 10⟩, [⟨keySignatureCategory, "Hb"⟩]⟩, []⟩]⟩

/-- A concrete voice whose only pitch key is the malformed string `X/3`. -/
def cVoice9 : Voice :=
  ⟨4, [⟨staveNoteCategory, 4, ["X/3"], [], none, "treble", 0⟩]⟩

/-- The scan of `getClosestAux` returns the first candidate with distance at
most zero immediately, whatever accumulators it carries, as long as every
earlier candidate is undistanceable or strictly positive. -/
theorem getClosestAux_early {T : Type} (f : T → Option ℝ) (c : T) (l2 : List T)
    (dc : ℝ) (hc : f c = some dc) (hdc : dc ≤ 0) :
    ∀ (l1 : List T) (i : ℕ) (closest : Option (ℕ × T)) (distance : Option ℝ),
      (∀ x ∈ l1, ∀ d, f x = some d → 0 < d) →
      getClosestAux f (l1 ++ c :: l2) i closest distance = some (i + l1.length, c) := by
  intro l1
  induction l1 with
  | nil =>
    intro i closest distance _
    simp [getClosestAux, hc, hdc]
  | cons x l1 ih =>
    intro i closest distance h
    have hx := h x (List.mem_cons_self x l1)
    have htail : ∀ y ∈ l1, ∀ d, f y = some d → 0 < d :=
      fun y hy => h y (List.mem_cons_of_mem x hy)
    rw [List.cons_append]
    rw [List.length_cons, show i + (l1.length + 1) = (i + 1) + l1.length by omega]
    cases hfx : f x with
    | none =>
      rw [show getClosestAux f (x :: (l1 ++ c :: l2)) i closest distance =
          getClosestAux f (l1 ++ c :: l2) (i + 1) closest distance by
        simp [getClosestAux, hfx]]
      exact ih (i + 1) closest distance htail
    | some d =>
      have hd : 0 < d := hx d hfx
      have hnd : ¬ d ≤ 0 := not_le.mpr hd
      cases distance with
      | none =>
        rw [show getClosestAux f (x :: (l1 ++ c :: l2)) i closest none =
            getClosestAux f (l1 ++ c :: l2) (i + 1) (some (i, x)) (some d) by
          simp [getClosestAux, hfx, hnd]]
        exact ih (i + 1) (some (i, x)) (some d) htail
      | some dist =>
        by_cases hlt : d < dist
        · rw [show getClosestAux f (x :: (l1 ++ c :: l2)) i closest (some dist) =
              getClosestAux f (l1 ++ c :: l2) (i + 1) (some (i, x)) (some d) by
            simp [getClosestAux, hfx, hnd, hlt]]
          exact ih (i + 1) (some (i, x)) (some d) htail
        · rw [show getClosestAux f (x :: (l1 ++ c :: l2)) i closest (some dist) =
              getClosestAux f (l1 ++ c :: l2) (i + 1) closest (some dist) by
            simp [getClosestAux, hfx, hnd, hlt]]
          exact ih (i + 1) closest (some dist) htail

/-- A singleton search returns its only candidate (at index 0) whenever that
candidate is distanceable, whatever its distance. -/
theorem getClosest_singleton {T : Type} (f : T → Option ℝ) (a : T) (d : ℝ)
    (h : f a = some d) : getClosest [a] f = some (0, a) := by
  by_cases hd : d ≤ 0 <;> simp [getClosest, getClosestAux, h, hd]

/-- C4: if a candidate has distance at most zero and every candidate before
it in iteration order is undistanceable or strictly positive, `getClosest`
returns that candidate with its index regardless of what follows it (so the
first zero-distance candidate wins over any later one); and a point strictly
inside a rectangle has `getDistance` zero. -/
theorem C4_closest_short_circuit :
    (∀ (T : Type) (f : T → Option ℝ) (l1 l2 : List T) (c : T) (dc : ℝ),
      (∀ x ∈ l1, ∀ d, f x = some d → 0 < d) → f c = some dc → dc ≤ 0 →
      getClosest (l1 ++ c :: l2) f = some (l1.length, c)) ∧
    (∀ (pt : Point) (bb : BoundingBox),
      bb.x < pt.x → pt.x < bb.x + bb.w → bb.y < pt.y → pt.y < bb.y + bb.h →
      getDistance pt bb = 0) := by
  constructor
  · intro T f l1 l2 c dc h hc hdc
    have := getClosestAux_early f c l2 dc hc hdc l1 0 none none h
    simpa [getClosest] using this
  · intro pt bb h1 h2 h3 h4
    have hx1 : ¬ pt.x < bb.x := not_lt.mpr (le_of_lt h1)
    have hx2 : ¬ pt.x > bb.x + bb.w := not_lt.mpr (le_of_lt h2)
    have hy1 : ¬ pt.y < bb.y := not_lt.mpr (le_of_lt h3)
    have hy2 : ¬ pt.y > bb.y + bb.h := not_lt.mpr (le_of_lt h4)
    simp [getDistance, getAbsOutsideRange, hx1, hx2, hy1, hy2]

/-- Witness for C4 at concrete inputs: the zero-distance candidate at index
1 wins though another zero-distance candidate follows at index 2, and the
point `cPt4` strictly inside `cBB4` has distance zero. -/
theorem C4_closest_short_circuit_witness :
    cDistFn4 5 = none ∧ cDistFn4 0 = some 0 ∧
    getClosest [5, 0, 0] cDistFn4 = some (1, 0) ∧
    cBB4.x < cPt4.x ∧ cPt4.x < cBB4.x + cBB4.w ∧
    cBB4.y < cPt4.y ∧ cPt4.y < cBB4.y + cBB4.h ∧
    getDistance cPt4 cBB4 = 0 := by
  have h5 : cDistFn4 5 = none := by simp [cDistFn4]
  have h0 : cDistFn4 0 = some 0 := by simp [cDistFn4]
  have hpre : ∀ x ∈ [(5 : ℕ)], ∀ d, cDistFn4 x = some d → 0 < d := by
    simp [cDistFn4]
  have hgc := C4_closest_short_circuit.1 ℕ cDistFn4 [5] [0] 0 0 hpre h0 (le_refl 0)
  have hx1 : cBB4.x < cPt4.x := by with_unfolding_all decide
  have hx2 : cPt4.x < cBB4.x + cBB4.w := by with_unfolding_all decide
  have hy1 : cBB4.y < cPt4.y := by with_unfolding_all decide
  have hy2 : cPt4.y < cBB4.y + cBB4.h := by with_unfolding_all decide
  have hdist := C4_closest_short_circuit.2 cPt4 cBB4 hx1 hx2 hy1 hy2
  refine ⟨h5, h0, ?_, hx1, hx2, hy1, hy2, hdist⟩
  simpa using hgc

/-- C2: evaluation of the code at the failing input.  The single voice's
only tickable starts strictly right of the click (an "after" candidate, and
the voice has no "before" candidate), yet `getClosestTickableResult` returns
it as `closestTickableBefore`. -/
theorem C2_after_selected_as_before :
    (getClosestTickableResult [cV2] cPt2).closestTickableBefore = some ⟨cT2, 0⟩ ∧
    getClosestTickableAux cPt2.x (getTickablesAndBeats cV2) none = (none, some ⟨cT2, 0⟩) ∧
    cT2.boundingBox = some ⟨10, 0, 5, 5⟩ ∧ cPt2.x < 10 := by
  have h1 : getClosestTickable cV2 cPt2.x = [⟨cT2, 0⟩] := by with_unfolding_all decide
  have hf : tickableDistance cPt2 ⟨cT2, 0⟩ = some (getDistance cPt2 ⟨10, 0, 5, 5⟩) := rfl
  have hs := getClosest_singleton (tickableDistance cPt2) ⟨cT2, 0⟩ _ hf
  refine ⟨?_, by with_unfolding_all decide, rfl, by with_unfolding_all decide⟩
  simp [getClosestTickableResult, h1, hs]

/-- The voices of the only part of `cSys1` reduce the tickable search to the
single contained note. -/
theorem cSys1_tickable_result :
    getClosestTickableResult [cVoice1] cPt1 =
      ⟨some ⟨cNote1, 0⟩, some ⟨cNote1, 0⟩⟩ := by
  have h1 : getClosestTickable cVoice1 cPt1.x = [⟨cNote1, 0⟩] := by
    with_unfolding_all decide
  have hf : tickableDistance cPt1 ⟨cNote1, 0⟩ =
      some (getDistance cPt1 ⟨25, 60, 10, 10⟩) := rfl
  have hs := getClosest_singleton (tickableDistance cPt1) ⟨cNote1, 0⟩ _ hf
  simp [getClosestTickableResult, h1, hs]

/-- The measure-level search on the one-measure score `[cSys1]` selects that
measure at index 0. -/
theorem cSys1_measure_result :
    getClosestSystemMeasure [cSys1] cPt1 = some (0, cSys1) := by
  have hc : ((120 : ℚ) ≠ 0 ∧ (120 : ℚ) - 60 > 0) := by with_unfolding_all decide
  have hd : systemMeasureDistance cPt1 cSys1 =
      some (getDistance cPt1 ⟨20, 60, 150, 120 - 60⟩) := by
    simp [systemMeasureDistance, cSys1, hc]
  exact getClosest_singleton (systemMeasureDistance cPt1) cSys1 _ hd

/-- The stave-level search on `cSys1` selects its only stave at index 0. -/
theorem cSys1_stave_result :
    getClosest (cSys1.parts.map (fun p => p.stave)) (staveDistance cPt1) =
      some (0, cStave1) := by
  have hm : cSys1.parts.map (fun p => p.stave) = [cStave1] := rfl
  rw [hm]
  exact getClosest_singleton (staveDistance cPt1) cStave1 _ rfl

/-- Evaluation of `getScoreMouseEvent` on the concrete one-note score with
the compute-accidentals flag false: the relevant fields of the returned
record. -/
theorem cSys1_event_fields :
    (getScoreMouseEvent [cSys1] cPt1 (some NOTE_MAPPING) false).closestTickableBefore =
      some ⟨cNote1, 0⟩ ∧
    (getScoreMouseEvent [cSys1] cPt1 (some NOTE_MAPPING) false).centerLineOffset = some 1 ∧
    (getScoreMouseEvent [cSys1] cPt1 (some NOTE_MAPPING) false).accidentals = none ∧
    (getScoreMouseEvent [cSys1] cPt1 (some NOTE_MAPPING) false).effectivePitch =
      some ⟨some ⟨0, ⟨'C', some "n"⟩, 0⟩, 5⟩ := by
  have hparts : cSys1.parts[(0 : ℕ)]? = some ⟨cStave1, [cVoice1]⟩ := rfl
  have hclo : getCenterLineOffset cStave1 cPt1 = 1 := by with_unfolding_all decide
  have hgn : getNoteAndOctave NOTE_MAPPING "treble" 1 0 none =
      some ⟨some ⟨0, ⟨'C', some "n"⟩, 0⟩, 5⟩ := by with_unfolding_all decide
  simp only [getScoreMouseEvent, cSys1_measure_result, cSys1_stave_result, hparts,
    cSys1_tickable_result, hclo]
  simp [baseEvent, Bool.false_eq_true, if_false]
  exact hgn

/-- C1 counterexample: at a concrete one-note score and a click inside the
note, calling `getScoreMouseEvent` with the compute-accidentals flag false
leaves `accidentals` absent but still returns an `effectivePitch` (C
natural, octave 5), although a closest-before note-event was found. -/
theorem C1_counterexample :
    (getScoreMouseEvent [cSys1] cPt1 (some NOTE_MAPPING) false).closestTickableBefore =
      some ⟨cNote1, 0⟩ ∧
    (getScoreMouseEvent [cSys1] cPt1 (some NOTE_MAPPING) false).accidentals = none ∧
    (getScoreMouseEvent [cSys1] cPt1 (some NOTE_MAPPING) false).effectivePitch =
      some ⟨some ⟨0, ⟨'C', some "n"⟩, 0⟩, 5⟩ :=
  ⟨cSys1_event_fields.1, cSys1_event_fields.2.2.1, cSys1_event_fields.2.2.2⟩

/-- C1 as amended: with the compute-accidentals flag false, the
`accidentals` field of the result is always absent, but `effectivePitch` is
still computed (with no accidental context) whenever a note map and a
closest-before note-event were found. -/
theorem C1_amended :
    ∀ (systems : List System) (pt : Point) (noteMap : Option NoteMapping),
      (getScoreMouseEvent systems pt noteMap false).accidentals = none ∧
      (∀ (nm : NoteMapping) (tb : TickableAndBeat) (clo : ℤ),
        noteMap = some nm →
        (getScoreMouseEvent systems pt noteMap false).closestTickableBefore = some tb →
        (getScoreMouseEvent systems pt noteMap false).centerLineOffset = some clo →
        (getScoreMouseEvent systems pt noteMap false).effectivePitch =
          getNoteAndOctave nm tb.tickable.clef clo tb.tickable.octave_shift none) := by
  intro systems pt noteMap
  constructor
  · unfold getScoreMouseEvent
    split
    · rfl
    · split
      · rfl
      · split
        · rfl
        · split
          · rename_i hft
            exact absurd hft (by simp)
          · dsimp only
            split
            · rfl
            · rfl
  · intro nm tb clo hnm
    subst hnm
    unfold getScoreMouseEvent
    split
    · intro h _
      simp [baseEvent] at h
    · split
      · intro h _
        simp [baseEvent] at h
      · split
        · intro h _
          simp [baseEvent] at h
        · split
          · rename_i hft
            exact absurd hft (by simp)
          · dsimp only
            split
            · rename_i nmv tbv heqn heqb
              intro h hc
              dsimp only at h hc ⊢
              rw [heqb] at h
              injection heqn with h1
              injection h with h2
              injection hc with h3
              rw [h1, h2, h3]
            · rename_i hno
              intro h hc
              dsimp only at h
              exact (hno nm tb rfl h).elim

/-- Witness for C1 as amended at the concrete one-note score: the flag is
false, a closest-before note-event was found, `accidentals` is absent and
`effectivePitch` equals the accidental-free pitch resolution. -/
theorem C1_amended_witness :
    (getScoreMouseEvent [cSys1] cPt1 (some NOTE_MAPPING) false).accidentals = none ∧
    (getScoreMouseEvent [cSys1] cPt1 (some NOTE_MAPPING) false).closestTickableBefore =
      some ⟨cNote1, 0⟩ ∧
    (getScoreMouseEvent [cSys1] cPt1 (some NOTE_MAPPING) false).centerLineOffset = some 1 ∧
    (getScoreMouseEvent [cSys1] cPt1 (some NOTE_MAPPING) false).effectivePitch =
      getNoteAndOctave NOTE_MAPPING cNote1.clef 1 cNote1.octave_shift none :=
  ⟨(C1_amended [cSys1] cPt1 (some NOTE_MAPPING)).1,
   cSys1_event_fields.1, cSys1_event_fields.2.1,
   (C1_amended [cSys1] cPt1 (some NOTE_MAPPING)).2 NOTE_MAPPING ⟨cNote1, 0⟩ 1 rfl
     cSys1_event_fields.1 cSys1_event_fields.2.1⟩

/-- C3 counterexample: on a two-stave measure whose first stave has no
voices at all, querying `getAccidentals` for stave index 0 still returns an
override established by the sharped C5 on the second stave. -/
theorem C3_counterexample :
    (cSys3.parts.getD 0 ⟨cStave1, []⟩).voices = [] ∧
    (getAccidentals [cSys3] 0 0 2).accidentalOverrides ('C', 5) = some "#" :=
  ⟨rfl, by with_unfolding_all decide⟩

/-- C3 as amended: the override component of `getAccidentals` collects the
accidentals of the voices of every part (every stave) of the target measure;
the stave index plays no role in it. -/
theorem C3_amended :
    ∀ (systems : List System) (staveIdx measureIdx : ℕ) (measureBeat : ℚ)
      (h : measureIdx < systems.length),
      (getAccidentals systems staveIdx measureIdx measureBeat).accidentalOverrides =
        getVoicesAccidentals
          ((systems.get ⟨measureIdx, h⟩).parts.flatMap (fun p => p.voices))
          measureBeat := by
  intro systems staveIdx measureIdx measureBeat h
  unfold getAccidentals
  rw [if_pos h]
  dsimp only
  rw [List.getElem?_eq_getElem h]
  rfl

/-- Witness for C3 as amended at the concrete two-stave measure. -/
theorem C3_amended_witness :
    0 < [cSys3].length ∧
    (getAccidentals [cSys3] 0 0 2).accidentalOverrides =
      getVoicesAccidentals
        (([cSys3].get ⟨0, Nat.zero_lt_one⟩).parts.flatMap (fun p => p.voices)) 2 :=
  ⟨Nat.zero_lt_one, C3_amended [cSys3] 0 0 2 Nat.zero_lt_one⟩

/-- The timeline scan pairs exactly the input tickables, in order. -/
theorem tickablesAndBeatsAux_map_tickable (resolution : ℚ) :
    ∀ (l : List Tickable) (s : ℚ),
      (tickablesAndBeatsAux resolution l s).map (fun p => p.tickable) = l := by
  intro l
  induction l with
  | nil => intro s; rfl
  | cons t ts ih => intro s; simp [tickablesAndBeatsAux, ih]

/-- The beat of the i-th pair of the timeline scan is the start value plus
the exact sum of the durations of the strictly earlier tickables, each taken
as a fraction of the resolution. -/
theorem tickablesAndBeatsAux_beat (resolution : ℚ) :
    ∀ (l : List Tickable) (s : ℚ) (i : ℕ),
      i < l.length →
      ((tickablesAndBeatsAux resolution l s).getD i cDummyTB).beat =
        s + ((l.take i).map (fun t => t.ticks / resolution)).sum := by
  intro l
  induction l with
  | nil =>
    intro s i h
    simp at h
  | cons t ts ih =>
    intro s i h
    cases i with
    | zero => simp [tickablesAndBeatsAux]
    | succ i =>
      simp only [tickablesAndBeatsAux, List.getD_cons_succ, List.take_succ_cons,
        List.map_cons, List.sum_cons]
      rw [ih (s + t.ticks / resolution) i (by simpa using h)]
      ring

/-- C5: `getTickablesAndBeats` returns one pair per note-event in order,
the i-th beat being the exact rational sum of the earlier durations divided
by the voice's resolution; for a quarter and two eighths at quarter
resolution the beats are 0, 1 and 3/2. -/
theorem C5_timeline_beats :
    (∀ (voice : Voice),
      (getTickablesAndBeats voice).map (fun p => p.tickable) = voice.tickables) ∧
    (∀ (voice : Voice) (i : ℕ), i < voice.tickables.length →
      ((getTickablesAndBeats voice).getD i cDummyTB).beat =
        ((voice.tickables.take i).map (fun t => t.ticks / voice.resolution)).sum) ∧
    (getTickablesAndBeats cVoice5).map (fun p => p.beat) = [0, 1, 3/2] := by
  refine ⟨fun voice => tickablesAndBeatsAux_map_tickable _ _ _,
    fun voice i h => ?_, by with_unfolding_all decide⟩
  have hb := tickablesAndBeatsAux_beat voice.resolution voice.tickables 0 i h
  simpa [getTickablesAndBeats] using hb

/-- Witness for C5 at the concrete quarter-and-two-eighths voice, at the
third note-event. -/
theorem C5_timeline_beats_witness :
    2 < cVoice5.tickables.length ∧
    ((getTickablesAndBeats cVoice5).getD 2 cDummyTB).beat =
      ((cVoice5.tickables.take 2).map (fun t => t.ticks / cVoice5.resolution)).sum :=
  ⟨by with_unfolding_all decide,
   C5_timeline_beats.2.1 cVoice5 2 (by with_unfolding_all decide)⟩

/-- The add-7 loop ends nonnegative and preserves the quantity
`offset + 7 * octave`. -/
theorem addSevens_spec (raw octave : ℤ) :
    0 ≤ (addSevens raw octave).1 ∧
    (addSevens raw octave).1 + 7 * (addSevens raw octave).2 = raw + 7 * octave := by
  induction raw, octave using addSevens.induct with
  | case1 raw octave h ih =>
    rw [addSevens, if_pos h]
    exact ⟨ih.1, by rw [ih.2]; ring⟩
  | case2 raw octave h =>
    rw [addSevens, if_neg h]
    exact ⟨by omega, rfl⟩

/-- The subtract-7 loop ends below 7, stays nonnegative when it starts
nonnegative, and preserves the quantity `offset + 7 * octave`. -/
theorem subSevens_spec (raw octave : ℤ) :
    (subSevens raw octave).1 < 7 ∧
    (0 ≤ raw → 0 ≤ (subSevens raw octave).1) ∧
    (subSevens raw octave).1 + 7 * (subSevens raw octave).2 = raw + 7 * octave := by
  induction raw, octave using subSevens.induct with
  | case1 raw octave h ih =>
    rw [subSevens, if_pos h]
    exact ⟨ih.1, fun _ => ih.2.1 (by omega), by rw [ih.2.2]; ring⟩
  | case2 raw octave h =>
    rw [subSevens, if_neg h]
    exact ⟨by omega, fun hr => hr, rfl⟩

/-- C7: the two normalization loops land the raw line-shift offset in
`[0, 7)` while preserving `offset + 7 * octave` (each added 7 decrements the
octave and each subtracted 7 increments it); `getNoteAndOctave` resolves the
note from the normalization of `centerLineOffset - clefLineShift*2 - 1`
starting at octave `5 - octaveShift`; raw offset `-1` normalizes to offset 6
with the octave decremented by one; and letter index 6 is the letter B. -/
theorem C7_pitch_normalization :
    (∀ raw base : ℤ,
      0 ≤ (normalizeLineShift raw base).1 ∧ (normalizeLineShift raw base).1 < 7 ∧
      (normalizeLineShift raw base).1 + 7 * (normalizeLineShift raw base).2 =
        raw + 7 * base) ∧
    (∀ (noteMap : NoteMapping) (clef : String) (c o s : ℤ),
      clefProperties clef = some s →
      getNoteAndOctave noteMap clef c o none =
        ((noteMap (normalizeLineShift (c - s * 2 - 1) (5 - o)).1).map
          (fun nlm => ⟨nlm.entries 0, (normalizeLineShift (c - s * 2 - 1) (5 - o)).2⟩))) ∧
    (∀ b : ℤ, normalizeLineShift (-1) b = (6, b - 1)) ∧
    (NOTE_MAPPING 6).map (fun m => m.noteLetter) = some 'B' := by
  refine ⟨fun raw base => ?_, fun noteMap clef c o s hs => ?_, fun b => ?_,
    by with_unfolding_all decide⟩
  · have ha := addSevens_spec raw base
    have hb := subSevens_spec (addSevens raw base).1 (addSevens raw base).2
    unfold normalizeLineShift
    exact ⟨hb.2.1 ha.1, hb.1, by rw [hb.2.2, ha.2]⟩
  · unfold getNoteAndOctave
    rw [hs]
    cases hm : noteMap (normalizeLineShift (c - s * 2 - 1) (5 - o)).1 with
    | none => simp [hm]
    | some nlm => simp [hm, jsTruthy]
  · show subSevens (addSevens (-1) b).1 (addSevens (-1) b).2 = (6, b - 1)
    rw [addSevens, if_pos (by omega : (-1 : ℤ) < 0)]
    rw [show (-1 : ℤ) + 7 = 6 by omega]
    rw [addSevens, if_neg (by omega : ¬ (6 : ℤ) < 0)]
    rw [subSevens, if_neg (by omega : ¬ (6 : ℤ) ≥ 7)]

/-- Witness for C7: on the treble clef (line shift 0) with center-line
offset 0 the raw offset is -1, and the pitch resolves through the
normalized pair (6, 4): the letter B one octave below the baseline. -/
theorem C7_pitch_normalization_witness :
    clefProperties "treble" = some 0 ∧
    getNoteAndOctave NOTE_MAPPING "treble" 0 0 none =
      ((NOTE_MAPPING (normalizeLineShift (0 - 0 * 2 - 1) (5 - 0)).1).map
        (fun nlm => ⟨nlm.entries 0, (normalizeLineShift (0 - 0 * 2 - 1) (5 - 0)).2⟩)) :=
  ⟨rfl, C7_pitch_normalization.2.1 NOTE_MAPPING "treble" 0 0 0 rfl⟩

/-- C8: when effective accidentals are supplied, `getNoteAndOctave` prefers
the measure override keyed by the resolved letter and octave; when that is
absent it falls back to the key-signature entry for the letter; when both
are absent the note is natural (accidental offset 0); and with no effective
accidentals supplied the note is resolved with no accidental. -/
theorem C8_accidental_priority :
    ∀ (noteMap : NoteMapping) (clef : String) (c o s : ℤ)
      (eff : EffectiveAccidentals) (nlm : NoteLetterMap),
      clefProperties clef = some s →
      noteMap (normalizeLineShift (c - s * 2 - 1) (5 - o)).1 = some nlm →
      ((jsTruthy (eff.accidentalOverrides
          (nlm.noteLetter, (normalizeLineShift (c - s * 2 - 1) (5 - o)).2)) = true →
        getNoteAndOctave noteMap clef c o (some eff) =
          some ⟨nlm.entries (getAccidentalOffset (eff.accidentalOverrides
              (nlm.noteLetter, (normalizeLineShift (c - s * 2 - 1) (5 - o)).2))),
            (normalizeLineShift (c - s * 2 - 1) (5 - o)).2⟩) ∧
      (jsTruthy (eff.accidentalOverrides
          (nlm.noteLetter, (normalizeLineShift (c - s * 2 - 1) (5 - o)).2)) = false →
        jsTruthy (eff.keySig nlm.noteLetter) = true →
        getNoteAndOctave noteMap clef c o (some eff) =
          some ⟨nlm.entries (getAccidentalOffset (eff.keySig nlm.noteLetter)),
            (normalizeLineShift (c - s * 2 - 1) (5 - o)).2⟩) ∧
      (jsTruthy (eff.accidentalOverrides
          (nlm.noteLetter, (normalizeLineShift (c - s * 2 - 1) (5 - o)).2)) = false →
        jsTruthy (eff.keySig nlm.noteLetter) = false →
        getNoteAndOctave noteMap clef c o (some eff) =
          some ⟨nlm.entries 0, (normalizeLineShift (c - s * 2 - 1) (5 - o)).2⟩) ∧
      (getNoteAndOctave noteMap clef c o none =
        some ⟨nlm.entries 0, (normalizeLineShift (c - s * 2 - 1) (5 - o)).2⟩)) := by
  intro noteMap clef c o s eff nlm hs hm
  have hopen : ∀ (eo : Option EffectiveAccidentals),
      getNoteAndOctave noteMap clef c o eo =
        (let accidental : Option String :=
          match eo with
          | none => none
          | some eff =>
            let a := eff.accidentalOverrides
              (nlm.noteLetter, (normalizeLineShift (c - s * 2 - 1) (5 - o)).2)
            if jsTruthy a then a else eff.keySig nlm.noteLetter
        some ⟨nlm.entries (if jsTruthy accidental then getAccidentalOffset accidental else 0),
          (normalizeLineShift (c - s * 2 - 1) (5 - o)).2⟩) := by
    intro eo
    unfold getNoteAndOctave
    rw [hs]
    dsimp only
    rw [hm]
  refine ⟨fun h1 => ?_, fun h1 h2 => ?_, fun h1 h2 => ?_, ?_⟩
  · rw [hopen (some eff)]
    simp [h1]
  · rw [hopen (some eff)]
    simp [h1, h2]
  · rw [hopen (some eff)]
    simp [h1, h2]
  · rw [hopen none]
    simp [jsTruthy]

/-- Witness for C8 at concrete inputs on the process-wide note mapping: an
override sharp beats the key signature on C5, the key-signature flat
applies to B4 when no override matches, C5 is natural when neither matches,
and no accidental context resolves C5 natural. -/
theorem C8_accidental_priority_witness :
    clefProperties "treble" = some 0 ∧
    (NOTE_MAPPING 0).isSome = true ∧ (NOTE_MAPPING 6).isSome = true ∧
    getNoteAndOctave NOTE_MAPPING "treble" 1 0 (some cEff8) =
      some ⟨some ⟨1, ⟨'C', some "#"⟩, 0⟩, 5⟩ ∧
    getNoteAndOctave NOTE_MAPPING "treble" 0 0 (some cEff8b) =
      some ⟨some ⟨10, ⟨'B', some "b"⟩, 6⟩, 4⟩ ∧
    getNoteAndOctave NOTE_MAPPING "treble" 1 0 (some cEff8c) =
      some ⟨some ⟨0, ⟨'C', some "n"⟩, 0⟩, 5⟩ ∧
    getNoteAndOctave NOTE_MAPPING "treble" 1 0 none =
      some ⟨some ⟨0, ⟨'C', some "n"⟩, 0⟩, 5⟩ := by
  have hsome0 : (NOTE_MAPPING 0).isSome = true := by with_unfolding_all decide
  have hsome6 : (NOTE_MAPPING 6).isSome = true := by with_unfolding_all decide
  have hget0 := Option.some_get hsome0
  have hget6 := Option.some_get hsome6
  have hn2b : (normalizeLineShift (1 - 0 * 2 - 1) (5 - 0)).2 = 5 := by
    with_unfolding_all decide
  have hn6b : (normalizeLineShift (0 - 0 * 2 - 1) (5 - 0)).2 = 4 := by
    with_unfolding_all decide
  have hm0 : NOTE_MAPPING (normalizeLineShift (1 - 0 * 2 - 1) (5 - 0)).1 =
      some ((NOTE_MAPPING 0).get hsome0) := by
    rw [show (normalizeLineShift (1 - 0 * 2 - 1) (5 - 0)).1 = 0 by
      with_unfolding_all decide]
    exact hget0.symm
  have hm6 : NOTE_MAPPING (normalizeLineShift (0 - 0 * 2 - 1) (5 - 0)).1 =
      some ((NOTE_MAPPING 6).get hsome6) := by
    rw [show (normalizeLineShift (0 - 0 * 2 - 1) (5 - 0)).1 = 6 by
      with_unfolding_all decide]
    exact hget6.symm
  have hL0 : ((NOTE_MAPPING 0).get hsome0).noteLetter = 'C' := by
    have hmap : (NOTE_MAPPING 0).map (fun m => m.noteLetter) = some 'C' := by
      with_unfolding_all decide
    rw [← hget0, Option.map_some'] at hmap
    exact Option.some.inj hmap
  have hL6 : ((NOTE_MAPPING 6).get hsome6).noteLetter = 'B' := by
    have hmap : (NOTE_MAPPING 6).map (fun m => m.noteLetter) = some 'B' := by
      with_unfolding_all decide
    rw [← hget6, Option.map_some'] at hmap
    exact Option.some.inj hmap
  have hE01 : ((NOTE_MAPPING 0).get hsome0).entries 1 =
      some ⟨1, ⟨'C', some "#"⟩, 0⟩ := by
    have hmap : (NOTE_MAPPING 0).map (fun m => m.entries 1) =
        some (some ⟨1, ⟨'C', some "#"⟩, 0⟩) := by with_unfolding_all decide
    rw [← hget0, Option.map_some'] at hmap
    exact Option.some.inj hmap
  have hE00 : ((NOTE_MAPPING 0).get hsome0).entries 0 =
      some ⟨0, ⟨'C', some "n"⟩, 0⟩ := by
    have hmap : (NOTE_MAPPING 0).map (fun m => m.entries 0) =
        some (some ⟨0, ⟨'C', some "n"⟩, 0⟩) := by with_unfolding_all decide
    rw [← hget0, Option.map_some'] at hmap
    exact Option.some.inj hmap
  have hE6f : ((NOTE_MAPPING 6).get hsome6).entries (-1) =
      some ⟨10, ⟨'B', some "b"⟩, 6⟩ := by
    have hmap : (NOTE_MAPPING 6).map (fun m => m.entries (-1)) =
        some (some ⟨10, ⟨'B', some "b"⟩, 6⟩) := by with_unfolding_all decide
    rw [← hget6, Option.map_some'] at hmap
    exact Option.some.inj hmap
  have h0 := C8_accidental_priority NOTE_MAPPING "treble" 1 0 0 cEff8
    ((NOTE_MAPPING 0).get hsome0) rfl hm0
  have h6 := C8_accidental_priority NOTE_MAPPING "treble" 0 0 0 cEff8b
    ((NOTE_MAPPING 6).get hsome6) rfl hm6
  have h0c := C8_accidental_priority NOTE_MAPPING "treble" 1 0 0 cEff8c
    ((NOTE_MAPPING 0).get hsome0) rfl hm0
  refine ⟨rfl, hsome0, hsome6, ?_, ?_, ?_, ?_⟩
  · have hc := h0.1 (by rw [hL0, hn2b]; with_unfolding_all decide)
    rw [hL0, hn2b,
      show getAccidentalOffset (cEff8.accidentalOverrides ('C', 5)) = 1 by
        with_unfolding_all decide, hE01] at hc
    exact hc
  · have hc := h6.2.1 (by rw [hL6, hn6b]; with_unfolding_all decide)
      (by rw [hL6]; with_unfolding_all decide)
    rw [hL6, hn6b,
      show getAccidentalOffset (cEff8b.keySig 'B') = -1 by
        with_unfolding_all decide, hE6f] at hc
    exact hc
  · have hc := h0c.2.2.1 (by rw [hL0, hn2b]; with_unfolding_all decide)
      (by rw [hL0]; with_unfolding_all decide)
    rw [hn2b, hE00] at hc
    exact hc
  · have hc := h0.2.2.2
    rw [hn2b, hE00] at hc
    exact hc

/-- The clamped fraction comparison is nonpositive exactly when the first
fraction is at most the second. -/
theorem compareFractions_le_iff (a b : ℚ) : compareFractions a b ≤ 0 ↔ a ≤ b := by
  unfold compareFractions
  constructor
  · intro h
    have hnum : (a - b).num ≤ 0 := by omega
    have hq : a - b ≤ 0 := Rat.num_nonpos.mp hnum
    linarith
  · intro h
    have hq : a - b ≤ 0 := sub_nonpos.mpr h
    have hnum : (a - b).num ≤ 0 := Rat.num_nonpos.mpr hq
    omega

/-- The entry sort order is reflexive. -/
theorem accEntryLe_refl (a : AccEntry) : accEntryLe a a :=
  (compareFractions_le_iff _ _).mpr le_rfl

/-- The entry sort order is total. -/
theorem accEntryLe_total (a b : AccEntry) : accEntryLe a b ∨ accEntryLe b a := by
  rcases le_total a.beat b.beat with h | h
  · exact Or.inl ((compareFractions_le_iff _ _).mpr h)
  · exact Or.inr ((compareFractions_le_iff _ _).mpr h)

/-- The entry sort order is transitive. -/
theorem accEntryLe_trans {a b c : AccEntry} (h1 : accEntryLe a b)
    (h2 : accEntryLe b c) : accEntryLe a c :=
  (compareFractions_le_iff _ _).mpr
    (le_trans ((compareFractions_le_iff _ _).mp h1) ((compareFractions_le_iff _ _).mp h2))

/-- The sorted kept entries are sorted by the beat order. -/
theorem sortedAccEntries_sorted (voices : List Voice) (stopBeat : ℚ) :
    (sortedAccEntries voices stopBeat).Sorted accEntryLe := by
  haveI : IsTotal AccEntry accEntryLe := ⟨accEntryLe_total⟩
  haveI : IsTrans AccEntry accEntryLe := ⟨fun _ _ _ => accEntryLe_trans⟩
  exact List.sorted_insertionSort accEntryLe _

/-- The sorted kept entries are a permutation of the kept entries. -/
theorem sortedAccEntries_perm (voices : List Voice) (stopBeat : ℚ) :
    List.Perm (sortedAccEntries voices stopBeat) (keptAccEntries voices stopBeat) :=
  List.perm_insertionSort accEntryLe _

/-- A kept entry parsed to a pitch with a truthy accidental and a beat at or
before the stop beat. -/
theorem keptPred_spec (stopBeat : ℚ) (e : AccEntry) (h : keptPred stopBeat e = true) :
    ∃ p, e.note = some p ∧ jsTruthy p.note.accidental = true ∧ e.beat ≤ stopBeat := by
  unfold keptPred at h
  cases he : e.note with
  | none => rw [he] at h; exact absurd h (by simp)
  | some p =>
    rw [he] at h
    rw [Bool.and_eq_true, decide_eq_true_eq] at h
    exact ⟨p, rfl, h.1, (compareFractions_le_iff _ _).mp h.2⟩

/-- An entry that applies to a key carries an accidental. -/
theorem entryAcc_isSome_of_applies (e : AccEntry) (k : Char × ℤ)
    (h : entryAppliesTo e k = true) : (entryAcc e).isSome = true := by
  unfold entryAppliesTo at h
  unfold entryAcc
  cases he : e.note with
  | none => rw [he] at h; exact absurd h (by simp)
  | some p =>
    rw [he] at h
    rw [Bool.and_eq_true] at h
    cases ha : p.note.accidental with
    | none =>
      rw [ha] at h
      exact absurd h.1 (by simp [jsTruthy])
    | some s => simp [ha]

/-- Writing an applying entry stores exactly its accidental under the key. -/
theorem applyAccEntry_of_applies (m0 : AccidentalOverrides) (e : AccEntry)
    (k : Char × ℤ) (h : entryAppliesTo e k = true) :
    applyAccEntry m0 e k = entryAcc e := by
  unfold entryAppliesTo at h
  unfold applyAccEntry entryAcc
  cases he : e.note with
  | none => rw [he] at h; exact absurd h (by simp)
  | some p =>
    rw [he] at h
    rw [Bool.and_eq_true, decide_eq_true_eq] at h
    simp only [he]
    rw [if_pos h.1, ← h.2, Function.update_same]
    rfl

/-- Writing a non-applying entry leaves the key unchanged. -/
theorem applyAccEntry_of_not (m0 : AccidentalOverrides) (e : AccEntry)
    (k : Char × ℤ) (h : ¬ entryAppliesTo e k = true) :
    applyAccEntry m0 e k = m0 k := by
  unfold entryAppliesTo at h
  unfold applyAccEntry
  cases he : e.note with
  | none => simp [he]
  | some p =>
    rw [he] at h
    simp only [he]
    by_cases ht : jsTruthy p.note.accidental = true
    · rw [if_pos ht]
      have hk : ¬ (p.note.noteLetter, p.octave) = k := by
        intro hkk
        exact h (by rw [Bool.and_eq_true, decide_eq_true_eq]; exact ⟨ht, hkk⟩)
      exact Function.update_noteq (fun hkk => hk hkk.symm) _ _
    · rw [if_neg ht]

/-- The override map built by folding entries reads, at each key, the
accidental of the last entry that applies to that key, or the initial map's
value when none does. -/
theorem foldl_applyAccEntry :
    ∀ (l : List AccEntry) (m0 : AccidentalOverrides) (k : Char × ℤ),
      l.foldl applyAccEntry m0 k =
        (match (l.filter (fun e => entryAppliesTo e k)).getLast? with
         | some e => entryAcc e
         | none => m0 k) := by
  intro l
  induction l with
  | nil => intro m0 k; rfl
  | cons e l ih =>
    intro m0 k
    rw [List.foldl_cons, ih (applyAccEntry m0 e) k]
    by_cases hf : entryAppliesTo e k = true
    · cases hfl : l.filter (fun x => entryAppliesTo x k) with
      | nil =>
        have h2 : (e :: l).filter (fun x => entryAppliesTo x k) = [e] := by
          rw [List.filter_cons]
          simp [hf, hfl]
        rw [h2]
        simp only [List.getLast?_nil, List.getLast?_singleton]
        exact applyAccEntry_of_applies m0 e k hf
      | cons y ys =>
        have h2 : (e :: l).filter (fun x => entryAppliesTo x k) = e :: y :: ys := by
          rw [List.filter_cons]
          simp [hf, hfl]
        rw [h2, List.getLast?_cons_cons]
        cases hz : (y :: ys).getLast? with
        | none => exact absurd (List.getLast?_eq_none_iff.mp hz) (by simp)
        | some z => rfl
    · have h2 : (e :: l).filter (fun x => entryAppliesTo x k) =
          l.filter (fun x => entryAppliesTo x k) := by
        rw [List.filter_cons]
        simp [hf]
      rw [h2]
      cases hfl : l.filter (fun x => entryAppliesTo x k) with
      | nil =>
        simp only [List.getLast?_nil]
        exact applyAccEntry_of_not m0 e k hf
      | cons y ys => rfl

/-- In a list sorted by the beat order, every element is at most the last
element. -/
theorem sorted_getLast?_max :
    ∀ (l : List AccEntry), l.Sorted accEntryLe → ∀ e, l.getLast? = some e →
      ∀ x ∈ l, accEntryLe x e := by
  intro l
  induction l with
  | nil => intro _ e he; simp at he
  | cons a l ih =>
    intro hs e he x hx
    cases l with
    | nil =>
      simp only [List.getLast?_singleton, Option.some.injEq] at he
      simp only [List.mem_singleton] at hx
      subst he
      subst hx
      exact accEntryLe_refl x
    | cons b l2 =>
      rw [List.getLast?_cons_cons] at he
      rcases List.mem_cons.mp hx with rfl | hx2
      · exact (List.sorted_cons.mp hs).1 e (List.mem_of_getLast?_eq_some he)
      · exact ih (List.sorted_cons.mp hs).2 e he x hx2

/-- C6: `getVoicesAccidentals` keeps only accidental-carrying entries whose
beat is at or before the cutoff, sorts them by beat ascending, and the
override stored for a key comes from a kept entry applying to that key
whose beat is maximal among all kept entries for that key; conversely any
kept applying entry guarantees an override for its key. -/
theorem C6_override_precedence :
    ∀ (voices : List Voice) (stopBeat : ℚ),
      (∀ e ∈ keptAccEntries voices stopBeat, e.beat ≤ stopBeat) ∧
      (sortedAccEntries voices stopBeat).Sorted accEntryLe ∧
      (∀ (k : Char × ℤ) (a : String),
        getVoicesAccidentals voices stopBeat k = some a →
        ∃ e, e ∈ keptAccEntries voices stopBeat ∧
          entryAppliesTo e k = true ∧ entryAcc e = some a ∧ e.beat ≤ stopBeat ∧
          ∀ e2 ∈ keptAccEntries voices stopBeat, entryAppliesTo e2 k = true →
            e2.beat ≤ e.beat) ∧
      (∀ (k : Char × ℤ),
        (∃ e, e ∈ keptAccEntries voices stopBeat ∧ entryAppliesTo e k = true) →
        (getVoicesAccidentals voices stopBeat k).isSome = true) := by
  intro voices stopBeat
  refine ⟨?_, sortedAccEntries_sorted voices stopBeat, ?_, ?_⟩
  · intro e he
    obtain ⟨p, _, _, hb⟩ := keptPred_spec stopBeat e (List.mem_filter.mp he).2
    exact hb
  · intro k a hk
    unfold getVoicesAccidentals at hk
    rw [foldl_applyAccEntry] at hk
    cases hlast : ((sortedAccEntries voices stopBeat).filter
        (fun e => entryAppliesTo e k)).getLast? with
    | none => rw [hlast] at hk; exact absurd hk (by simp)
    | some e =>
      rw [hlast] at hk
      have hef := List.mem_filter.mp (List.mem_of_getLast?_eq_some hlast)
      have hkept : e ∈ keptAccEntries voices stopBeat :=
        (sortedAccEntries_perm voices stopBeat).subset hef.1
      have hsf := (sortedAccEntries_sorted voices stopBeat).filter
        (fun e => entryAppliesTo e k)
      have hmax := sorted_getLast?_max _ hsf e hlast
      obtain ⟨p, _, _, hb⟩ := keptPred_spec stopBeat e (List.mem_filter.mp hkept).2
      refine ⟨e, hkept, hef.2, hk, hb, ?_⟩
      intro e2 he2 hap2
      have he2s : e2 ∈ sortedAccEntries voices stopBeat :=
        ((sortedAccEntries_perm voices stopBeat).mem_iff).mpr he2
      have he2f : e2 ∈ (sortedAccEntries voices stopBeat).filter
          (fun e => entryAppliesTo e k) :=
        List.mem_filter.mpr ⟨he2s, hap2⟩
      exact (compareFractions_le_iff _ _).mp (hmax e2 he2f)
  · intro k hex
    obtain ⟨e, he, hap⟩ := hex
    unfold getVoicesAccidentals
    rw [foldl_applyAccEntry]
    have hes : e ∈ sortedAccEntries voices stopBeat :=
      ((sortedAccEntries_perm voices stopBeat).mem_iff).mpr he
    have hef : e ∈ (sortedAccEntries voices stopBeat).filter
        (fun e => entryAppliesTo e k) :=
      List.mem_filter.mpr ⟨hes, hap⟩
    cases hlast : ((sortedAccEntries voices stopBeat).filter
        (fun e => entryAppliesTo e k)).getLast? with
    | none =>
      rw [List.getLast?_eq_none_iff] at hlast
      rw [hlast] at hef
      exact absurd hef (List.not_mem_nil e)
    | some e3 =>
      have hef3 := List.mem_filter.mp (List.mem_of_getLast?_eq_some hlast)
      exact entryAcc_isSome_of_applies e3 k hef3.2

/-- Witness for C6 at the concrete voice with a sharp then a flat on C5:
the flat (the later beat) wins, and it is maximal among kept entries. -/
theorem C6_override_precedence_witness :
    getVoicesAccidentals [cVoice6] 2 ('C', 5) = some "b" ∧
    (∃ e, e ∈ keptAccEntries [cVoice6] 2 ∧
      entryAppliesTo e ('C', 5) = true ∧ entryAcc e = some "b" ∧ e.beat ≤ 2 ∧
      ∀ e2 ∈ keptAccEntries [cVoice6] 2, entryAppliesTo e2 ('C', 5) = true →
        e2.beat ≤ e.beat) ∧
    (getVoicesAccidentals [cVoice6] 2 ('C', 5)).isSome = true := by
  have h1 : getVoicesAccidentals [cVoice6] 2 ('C', 5) = some "b" := by
    with_unfolding_all decide
  have hmem : (⟨some ⟨⟨'C', some "#"⟩, 5⟩, 0⟩ : AccEntry) ∈ keptAccEntries [cVoice6] 2 := by
    with_unfolding_all decide
  have hap : entryAppliesTo (⟨some ⟨⟨'C', some "#"⟩, 5⟩, 0⟩ : AccEntry) ('C', 5) = true := by
    with_unfolding_all decide
  exact ⟨h1, (C6_override_precedence [cVoice6] 2).2.2.1 ('C', 5) "b" h1,
    (C6_override_precedence [cVoice6] 2).2.2.2 ('C', 5) ⟨_, hmem, hap⟩⟩

/-- Parsing and the optional accidental adoption never change the parsed
octave: the entry's octave is the parsed key's octave. -/
theorem toAccEntry_octave (kba : KeyBeatAcc) :
    (toAccEntry kba).note.map (fun p => p.octave) =
      (parseNoteAndOctave kba.key).map (fun q => q.octave) := by
  unfold toAccEntry
  cases hpn : parseNoteAndOctave kba.key with
  | none => cases kba.accidental <;> rfl
  | some q =>
    cases ha : kba.accidental with
    | none => rfl
    | some a =>
      dsimp only
      split
      · rfl
      · rfl

/-- Every pitch-key entry of a note-event quotes one of its key strings. -/
theorem noteKeyEntries_key_mem (tb : TickableAndBeat) (kba : KeyBeatAcc)
    (h : kba ∈ noteKeyEntries tb) : kba.key ∈ tb.tickable.keys := by
  unfold noteKeyEntries at h
  by_cases hc : tb.tickable.category = staveNoteCategory
  · rw [if_pos hc] at h
    obtain ⟨i, hi, heq⟩ := List.mem_mapIdx.mp h
    rw [← heq]
    exact List.getElem_mem hi
  · rw [if_neg hc] at h
    exact absurd h (List.not_mem_nil _)

/-- A successfully parsed pitch key never has octave zero: the octave's JS
truthiness check rejects it. -/
theorem parseNoteAndOctave_octave_ne_zero (s : String) (p : NoteWithOctave)
    (h : parseNoteAndOctave s = some p) : p.octave ≠ 0 := by
  unfold parseNoteAndOctave at h
  by_cases hp : (s.splitOn "/").length ≠ 2
  · rw [if_pos hp] at h
    exact absurd h (by simp)
  · rw [if_neg hp] at h
    dsimp only at h
    cases hn : parseNote ((s.splitOn "/").getD 0 "") with
    | none => rw [hn] at h; exact absurd h (by simp)
    | some n =>
      cases ho : jsParseInt ((s.splitOn "/").getD 1 "") with
      | none => rw [hn, ho] at h; exact absurd h (by simp)
      | some o =>
        rw [hn, ho] at h
        dsimp only at h
        by_cases ho0 : o = 0
        · rw [if_pos ho0] at h
          exact absurd h (by simp)
        · rw [if_neg ho0] at h
          have := Option.some.inj h
          rw [← this]
          exact ho0

/-- C10: a pitch key with octave component 0 fails to parse even though its
letter and digits are well formed (the octave truthiness check treats 0 as
a parse failure); no parsed key ever has octave 0, and consequently no
accidental override is ever established for any letter at octave 0. -/
theorem C10_octave_zero_rejected :
    parseNoteAndOctave "C/0" = none ∧
    parseNote "C" = some ⟨'C', none⟩ ∧
    jsParseInt "0" = some 0 ∧
    (∀ (s : String) (p : NoteWithOctave), parseNoteAndOctave s = some p → p.octave ≠ 0) ∧
    (∀ (voices : List Voice) (stopBeat : ℚ) (l : Char),
      getVoicesAccidentals voices stopBeat (l, 0) = none) := by
  refine ⟨by with_unfolding_all decide, by with_unfolding_all decide,
    by with_unfolding_all decide, parseNoteAndOctave_octave_ne_zero, ?_⟩
  intro voices stopBeat l
  unfold getVoicesAccidentals
  rw [foldl_applyAccEntry]
  have hf : (sortedAccEntries voices stopBeat).filter
      (fun e => entryAppliesTo e (l, 0)) = [] := by
    rw [List.filter_eq_nil_iff]
    intro e hes hap
    have hkept := (sortedAccEntries_perm voices stopBeat).subset hes
    have hraw := (List.mem_filter.mp hkept).1
    obtain ⟨kba, hkba, heq⟩ := List.mem_map.mp hraw
    unfold entryAppliesTo at hap
    cases hen : e.note with
    | none => rw [hen] at hap; simp at hap
    | some p =>
      rw [hen] at hap
      rw [Bool.and_eq_true, decide_eq_true_eq] at hap
      have hoct0 : p.octave = 0 := congrArg Prod.snd hap.2
      have hoc := toAccEntry_octave kba
      rw [heq, hen] at hoc
      cases hq : parseNoteAndOctave kba.key with
      | none => rw [hq] at hoc; simp at hoc
      | some q =>
        rw [hq] at hoc
        simp only [Option.map_some'] at hoc
        have hpq : p.octave = q.octave := Option.some.inj hoc
        exact parseNoteAndOctave_octave_ne_zero kba.key q hq (by rw [← hpq, hoct0])
  rw [hf]
  rfl

/-- C9: a malformed key-signature name makes `getKeySigAccidentals` yield
none and `getAccidentals` proceed with the empty key-signature assumption;
malformed pitch keys contribute no accidental overrides at all; and
`getScoreMouseEvent` always returns a complete record (here: carrying the
click coordinates) rather than aborting. -/
theorem C9_malformed_strings :
    (∀ s : String, parseNote s = none →
      ∀ m : StaveModifier, m.keySpec = s → getKeySigAccidentals m = none) ∧
    (∀ (systems : List System) (staveIdx measureIdx : ℕ) (measureBeat : ℚ),
      findKeySig systems staveIdx measureIdx = none →
      ∀ l : Char,
        (getAccidentals systems staveIdx measureIdx measureBeat).keySig l = none) ∧
    (∀ (v : Voice) (stopBeat : ℚ),
      (∀ t ∈ v.tickables, ∀ key ∈ t.keys, parseNoteAndOctave key = none) →
      ∀ k : Char × ℤ, getVoicesAccidentals [v] stopBeat k = none) ∧
    (∀ (systems : List System) (pt : Point) (noteMap : Option NoteMapping)
        (fetchAccidentals : Bool),
      (getScoreMouseEvent systems pt noteMap fetchAccidentals).mouseX = pt.x ∧
      (getScoreMouseEvent systems pt noteMap fetchAccidentals).mouseY = pt.y) := by
  refine ⟨?_, ?_, ?_, ?_⟩
  · intro s hs m hm
    unfold getKeySigAccidentals
    rw [hm, hs]
  · intro systems staveIdx measureIdx measureBeat h l
    unfold getAccidentals
    by_cases hlen : systems.length > measureIdx
    · rw [if_pos hlen]
      dsimp only
      rw [h]
      rfl
    · rw [if_neg hlen]
  · intro v stopBeat hbad k
    unfold getVoicesAccidentals
    have hkept : keptAccEntries [v] stopBeat = [] := by
      unfold keptAccEntries
      rw [List.filter_eq_nil_iff]
      intro e he hkp
      obtain ⟨kba, hkba, heq⟩ := List.mem_map.mp he
      obtain ⟨tb, htb, hkb2⟩ := List.mem_flatMap.mp hkba
      have htb2 : tb ∈ getTickablesAndBeats v := by simpa using htb
      have hkey : kba.key ∈ tb.tickable.keys := noteKeyEntries_key_mem tb kba hkb2
      have htick : tb.tickable ∈ v.tickables := by
        have hmap := tickablesAndBeatsAux_map_tickable v.resolution v.tickables 0
        have : tb.tickable ∈ (getTickablesAndBeats v).map (fun p => p.tickable) :=
          List.mem_map_of_mem _ htb2
        rw [getTickablesAndBeats] at this
        rw [hmap] at this
        exact this
      have hnone := hbad tb.tickable htick kba.key hkey
      obtain ⟨p, hp, _, _⟩ := keptPred_spec stopBeat e hkp
      have hoc := toAccEntry_octave kba
      rw [heq, hp, hnone] at hoc
      simp at hoc
    rw [show sortedAccEntries [v] stopBeat = [] from by
      unfold sortedAccEntries
      rw [hkept]
      rfl]
    rfl
  · intro systems pt noteMap fetchAccidentals
    refine ⟨?_, ?_⟩ <;>
    · unfold getScoreMouseEvent
      split
      · rfl
      · split
        · rfl
        · split
          · rfl
          · dsimp only
            split
            · rfl
            · rfl

/-- Witness for C10: a well-formed key in octave 5 parses with a nonzero
octave, and the concrete sharp-then-flat voice establishes no override at
octave 0. -/
theorem C10_octave_zero_rejected_witness :
    parseNoteAndOctave "C/5" = some ⟨⟨'C', none⟩, 5⟩ ∧
    (5 : ℤ) ≠ 0 ∧
    getVoicesAccidentals [cVoice6] 2 ('C', 0) = none :=
  ⟨by with_unfolding_all decide,
   C10_octave_zero_rejected.2.2.2.1 "C/5" ⟨⟨'C', none⟩, 5⟩ (by with_unfolding_all decide),
   C10_octave_zero_rejected.2.2.2.2 [cVoice6] 2 'C'⟩

/-- Witness for C9 at concrete malformed strings: the key name `Hb` and the
pitch key `X/3` parse to none, the surrounding lookups proceed with empty
assumptions, and the assembler still returns the click coordinates. -/
theorem C9_malformed_strings_witness :
    parseNote "Hb" = none ∧
    getKeySigAccidentals ⟨keySignatureCategory, "Hb"⟩ = none ∧
    (findKeySig [cSys9] 0 0).isNone = true ∧
    (getAccidentals [cSys9] 0 0 2).keySig 'B' = none ∧
    parseNoteAndOctave "X/3" = none ∧
    getVoicesAccidentals [cVoice9] 2 ('C', 3) = none ∧
    (getScoreMouseEvent [cSys9] cPt1 (some NOTE_MAPPING) true).mouseX = cPt1.x := by
  have hp : parseNote "Hb" = none := by with_unfolding_all decide
  have hk : (findKeySig [cSys9] 0 0).isNone = true := by with_unfolding_all decide
  have hx : parseNoteAndOctave "X/3" = none := by with_unfolding_all decide
  exact ⟨hp, C9_malformed_strings.1 "Hb" hp ⟨keySignatureCategory, "Hb"⟩ rfl, hk,
    C9_malformed_strings.2.1 [cSys9] 0 0 2 (Option.isNone_iff_eq_none.mp hk) 'B',
    hx, C9_malformed_strings.2.2.1 cVoice9 2 (by with_unfolding_all decide) ('C', 3),
    (C9_malformed_strings.2.2.2 [cSys9] cPt1 (some NOTE_MAPPING) true).1⟩

end VFM
